import Mathlib

/-!
Verification of the reconciliation core of `sync.py` (Mendeley ↔ reMarkable
folder sync).  Strings are modelled as `List Char`; the side-effecting parts
of the script are modelled as pure functions producing a trace of mutation
events together with a success flag, with the outcomes of the external
`rmapi` calls supplied by oracles.
-/

namespace Sync

/-- Canonical keys and path strings are modelled as lists of characters. -/
abbrev Key := List Char

/-- Embedding of Python `text.replace(".", "")` from `to_filename`
(`sync.py` line 238): every period character is dropped, every other
character is kept in order. -/
def replacePeriodWithEmpty : List Char → List Char
  | [] => []
  | c :: cs => if c = '.' then replacePeriodWithEmpty cs else c :: replacePeriodWithEmpty cs

/-- `to_filename(text, nospaces=False)` (`sync.py` lines 235-239): the body
only performs `text.replace(".", "")`; the `nospaces` parameter is unused. -/
def to_filename (text : List Char) (_nospaces : Bool) : List Char :=
  replacePeriodWithEmpty text

/-- The delimiter `---` of the key format string `"{}---{}"` (line 257). -/
def delim : Key := ("---").toList

/-- The fixed local document extension `".pdf"` used for all local copies. -/
def pdfExt : Key := (".pdf").toList

/-- Folder name constant (`sync.py` line 63). -/
def REMARKABLE_FOLDER_IN_MENDELEY : Key := ("Remarkable").toList

/-- Folder name constant (`sync.py` line 64). -/
def MENDELEY_FOLDER_IN_REMARKABLE : Key := ("Mendeley").toList

/-- A Mendeley document as the script uses it: a title, an opaque stable id,
and the list of attached file handles (`mdoc.files`). -/
structure MDoc where
  title : Key
  docId : Key
  attachments : List Key
  deriving DecidableEq

/-- The canonical key `"{}---{}".format(to_filename(m.title), m.id)` built
in `main` (`sync.py` line 257). -/
def canonicalize (title docId : Key) : Key :=
  to_filename title false ++ delim ++ docId

/-- Canonical key of a document. -/
def canonicalKey (d : MDoc) : Key := canonicalize d.title d.docId

/-- Python `dict` assignment `m[k] = v`: if the key is already bound its
value is overwritten in place, otherwise the binding is appended (insertion
order is preserved, as for a Python `dict`). -/
def dictInsert (m : List (Key × Nat)) (k : Key) (v : Nat) : List (Key × Nat) :=
  match m with
  | [] => [(k, v)]
  | (k₂, v₂) :: rest => if k₂ = k then (k₂, v) :: rest else (k₂, v₂) :: dictInsert rest k v

/-- Python `dict` lookup `m[k]` (as an `Option`). -/
def dictLookup : List (Key × Nat) → Key → Option Nat
  | [], _ => none
  | (k₂, v) :: rest, k => if k₂ = k then some v else dictLookup rest k

/-- The comprehension
`mfiles = {"{}---{}".format(to_filename(m.title), m.id) : idx for idx, m in enumerate(mdocuments)}`
(`sync.py` lines 257-258), with Python-`dict` overwrite semantics for
duplicate keys. -/
def buildKeyMap (docs : List MDoc) : List (Key × Nat) :=
  docs.enum.foldl (fun m p => dictInsert m (canonicalKey p.2) p.1) []

/-- The keys of a Python `dict`, in insertion order (`mfiles.keys()`). -/
def dictKeys (m : List (Key × Nat)) : List Key := m.map Prod.fst

/-- `m_and_r = [f for f in mfiles.keys() if f in rfiles]` (`sync.py` line 272). -/
def m_and_r (mkeys rfiles : List Key) : List Key :=
  mkeys.filter (fun f => decide (f ∈ rfiles))

/-- `m_minus_r = [f for f in mfiles.keys() if f not in rfiles]` (line 273). -/
def m_minus_r (mkeys rfiles : List Key) : List Key :=
  mkeys.filter (fun f => decide (f ∉ rfiles))

/-- `r_minus_m = [f for f in rfiles if f not in mfiles.keys()]` (line 274). -/
def r_minus_m (mkeys rfiles : List Key) : List Key :=
  rfiles.filter (fun f => decide (f ∉ mkeys))

/- ------------------------------------------------------------------ -/
/- Identity codec claims                                               -/
/- ------------------------------------------------------------------ -/

/-- `replacePeriodWithEmpty` is exactly a filter dropping periods. -/
theorem replacePeriodWithEmpty_eq_filter (t : List Char) :
    replacePeriodWithEmpty t = t.filter (fun c => decide (c ≠ '.')) := by
  induction t with
  | nil => rfl
  | cons c cs ih =>
    by_cases h : c = '.'
    · simp [replacePeriodWithEmpty, List.filter, h, ih]
    · simp [replacePeriodWithEmpty, List.filter, h, ih]

/-- C10: for every input string and either value of the `nospaces` flag,
`to_filename` returns its input with every period removed and makes no
other change (it equals a filter keeping exactly the non-period characters);
the `nospaces` parameter has no effect on the result, and `to_filename` is
idempotent. -/
theorem to_filename_filter_spec (t : List Char) (ns ns₂ : Bool) :
    to_filename t ns = t.filter (fun c => decide (c ≠ '.')) ∧
    to_filename t ns = to_filename t ns₂ ∧
    to_filename (to_filename t ns) ns₂ = to_filename t ns := by
  refine ⟨replacePeriodWithEmpty_eq_filter t, rfl, ?_⟩
  show replacePeriodWithEmpty (replacePeriodWithEmpty t) = replacePeriodWithEmpty t
  induction t with
  | nil => rfl
  | cons c cs ih =>
    by_cases h : c = '.'
    · simp [replacePeriodWithEmpty, h, ih]
    · simp [replacePeriodWithEmpty, h, ih]

/-- C4: the canonical key `<sanitized title>---<id>` is deterministic and,
for a fixed title, two ids yield equal keys exactly when the ids are equal;
in particular distinct ids give distinct keys. -/
theorem canonicalize_det_inj (t d₁ d₂ : Key) :
    canonicalize t d₁ = canonicalize t d₂ ↔ d₁ = d₂ := by
  constructor
  · intro h
    unfold canonicalize at h
    exact List.append_cancel_left h
  · intro h; rw [h]

/-- C5 counterexample: the sanitized title produced by `to_filename` CAN
contain the delimiter sequence `---`: `to_filename` only removes periods,
so the title `"a---b"` sanitizes to itself, which has `---` as an infix. -/
theorem sanitized_title_can_contain_delim :
    delim <:+: to_filename (("a---b").toList) false :=
  ⟨("a").toList, ("b").toList, by decide⟩

/-- C5 amended: for every title string, `to_filename` removes at minimum all
period characters (no period survives sanitization), but it does not strip
the delimiter sequence `---`, which can therefore appear in a sanitized
title when the raw title contains it. -/
theorem to_filename_strips_periods (t : Key) (ns : Bool) :
    ('.') ∉ to_filename t ns := by
  intro h
  rw [show to_filename t ns = replacePeriodWithEmpty t from rfl,
    replacePeriodWithEmpty_eq_filter] at h
  have := List.of_mem_filter h
  simp at this

/- ------------------------------------------------------------------ -/
/- Reconciliation engine claim                                         -/
/- ------------------------------------------------------------------ -/

/-- C1: for every pair of finite key sets `S` (mendeley keys) and `T`
(remarkable keys) — including empty sets and `S = T` — the reconciliation
computed in `main` satisfies `m_and_r = S ∩ T`, `m_minus_r = S − T`,
`r_minus_m = T − S`; the three result sets are pairwise disjoint and their
union is `S ∪ T`. -/
theorem reconcile_partition_correct (S T : List Key) :
    (m_and_r S T).toFinset = S.toFinset ∩ T.toFinset ∧
    (m_minus_r S T).toFinset = S.toFinset \ T.toFinset ∧
    (r_minus_m S T).toFinset = T.toFinset \ S.toFinset ∧
    Disjoint (m_and_r S T).toFinset (m_minus_r S T).toFinset ∧
    Disjoint (m_and_r S T).toFinset (r_minus_m S T).toFinset ∧
    Disjoint (m_minus_r S T).toFinset (r_minus_m S T).toFinset ∧
    (m_and_r S T).toFinset ∪ (m_minus_r S T).toFinset ∪ (r_minus_m S T).toFinset
      = S.toFinset ∪ T.toFinset := by
  have h₁ : (m_and_r S T).toFinset = S.toFinset ∩ T.toFinset := by
    ext a; simp [m_and_r, List.mem_filter]
  have h₂ : (m_minus_r S T).toFinset = S.toFinset \ T.toFinset := by
    ext a; simp [m_minus_r, List.mem_filter]
  have h₃ : (r_minus_m S T).toFinset = T.toFinset \ S.toFinset := by
    ext a; simp [r_minus_m, List.mem_filter]
  refine ⟨h₁, h₂, h₃, ?_, ?_, ?_, ?_⟩
  · rw [h₁, h₂, Finset.disjoint_left]
    intro a ha hb
    simp only [Finset.mem_inter, Finset.mem_sdiff] at ha hb
    exact hb.2 ha.2
  · rw [h₁, h₃, Finset.disjoint_left]
    intro a ha hb
    simp only [Finset.mem_inter, Finset.mem_sdiff] at ha hb
    exact hb.2 ha.1
  · rw [h₂, h₃, Finset.disjoint_left]
    intro a ha hb
    simp only [Finset.mem_sdiff] at ha hb
    exact hb.2 ha.1
  · rw [h₁, h₂, h₃]
    ext a
    simp only [Finset.mem_union, Finset.mem_inter, Finset.mem_sdiff]
    tauto

/- ------------------------------------------------------------------ -/
/- Key-map construction claim (Python dict semantics)                  -/
/- ------------------------------------------------------------------ -/

/-- First-defined choice on options (used to state lookup/find facts). -/
def orO {α : Type _} : Option α → Option α → Option α
  | some x, _ => some x
  | none, b => b

theorem orO_none_right {α : Type _} (a : Option α) : orO a none = a := by
  cases a <;> rfl

theorem orO_assoc {α : Type _} (a b c : Option α) :
    orO (orO a b) c = orO a (orO b c) := by
  cases a <;> rfl

theorem map_orO {α β : Type _} (f : α → β) (a b : Option α) :
    (orO a b).map f = orO (a.map f) (b.map f) := by
  cases a <;> rfl

theorem find?_append {α : Type _} (q : α → Bool) (l₁ l₂ : List α) :
    (l₁ ++ l₂).find? q = orO (l₁.find? q) (l₂.find? q) := by
  induction l₁ with
  | nil => simp [orO]
  | cons x xs ih =>
    by_cases h : q x = true
    · simp [List.find?_cons_of_pos, h, orO]
    · simp only [List.cons_append]
      rw [List.find?_cons_of_neg _ h, List.find?_cons_of_neg _ h, ih]

theorem dictLookup_dictInsert (m : List (Key × Nat)) (k k₂ : Key) (v : Nat) :
    dictLookup (dictInsert m k v) k₂ = if k = k₂ then some v else dictLookup m k₂ := by
  induction m with
  | nil => simp [dictInsert, dictLookup]
  | cons p rest ih =>
    obtain ⟨a, b⟩ := p
    simp only [dictInsert]
    by_cases hak : a = k
    · subst hak
      simp only [if_pos rfl, dictLookup]
      by_cases hk : a = k₂
      · subst hk; simp
      · simp [hk]
    · simp only [if_neg hak, dictLookup]
      by_cases hk₂ : a = k₂
      · subst hk₂
        have hkk : ¬ (k = a) := fun h => hak h.symm
        simp [if_neg hkk]
      · simp [hk₂, ih]

theorem mem_dictKeys_dictInsert (m : List (Key × Nat)) (k x : Key) (v : Nat)
    (h : x ∈ dictKeys (dictInsert m k v)) : x = k ∨ x ∈ dictKeys m := by
  induction m with
  | nil => simpa [dictInsert, dictKeys] using h
  | cons p rest ih =>
    obtain ⟨a, b⟩ := p
    by_cases hak : a = k
    · subst hak
      simpa [dictInsert, dictKeys] using h
    · simp only [dictInsert, if_neg hak, dictKeys, List.map_cons, List.mem_cons] at h
      rcases h with h | h
      · exact Or.inr (by simp [dictKeys, h])
      · rcases ih h with h | h
        · exact Or.inl h
        · exact Or.inr (by simp [dictKeys] at h ⊢; exact Or.inr h)

theorem nodup_dictKeys_dictInsert (m : List (Key × Nat)) (k : Key) (v : Nat)
    (h : (dictKeys m).Nodup) : (dictKeys (dictInsert m k v)).Nodup := by
  induction m with
  | nil => simp [dictInsert, dictKeys]
  | cons p rest ih =>
    obtain ⟨a, b⟩ := p
    simp only [dictKeys, List.map_cons, List.nodup_cons] at h
    by_cases hak : a = k
    · subst hak
      simpa [dictInsert, dictKeys, List.nodup_cons] using h
    · simp only [dictInsert, if_neg hak, dictKeys, List.map_cons, List.nodup_cons]
      refine ⟨fun hmem => ?_, ih h.2⟩
      rcases mem_dictKeys_dictInsert _ _ _ _ hmem with h' | h'
      · exact hak h'
      · exact h.1 (by simpa [dictKeys] using h')

theorem nodup_dictKeys_foldl (ps : List (Nat × MDoc)) :
    ∀ m, (dictKeys m).Nodup →
      (dictKeys (ps.foldl (fun m p => dictInsert m (canonicalKey p.2) p.1) m)).Nodup := by
  induction ps with
  | nil => intro m h; simpa using h
  | cons p ps ih =>
    intro m h
    exact ih _ (nodup_dictKeys_dictInsert _ _ _ h)

theorem dictLookup_foldl (ps : List (Nat × MDoc)) :
    ∀ (m : List (Key × Nat)) (k : Key),
      dictLookup (ps.foldl (fun m p => dictInsert m (canonicalKey p.2) p.1) m) k
        = orO ((ps.reverse.find? (fun p => decide (canonicalKey p.2 = k))).map Prod.fst)
            (dictLookup m k) := by
  induction ps with
  | nil => intro m k; simp [orO]
  | cons p ps ih =>
    intro m k
    simp only [List.foldl_cons, List.reverse_cons]
    rw [ih, find?_append, map_orO, orO_assoc]
    congr 1
    by_cases hq : canonicalKey p.2 = k
    · simp [dictLookup_dictInsert, hq, List.find?, orO]
    · simp [dictLookup_dictInsert, hq, List.find?, orO]

/-- C9: the key-to-index mapping `mfiles` built in `main` has exactly one
document index per key (its key list is duplicate-free), and looking a key
up yields the index of the last-enumerated document bearing that key (the
first hit searching `enumerate(mdocuments)` from the end), so any
earlier-enumerated document with the same canonical key is dropped from the
mapping. -/
theorem keymap_last_wins (docs : List MDoc) :
    (dictKeys (buildKeyMap docs)).Nodup ∧
    ∀ k, dictLookup (buildKeyMap docs) k
      = (docs.enum.reverse.find? (fun p => decide (canonicalKey p.2 = k))).map Prod.fst := by
  constructor
  · exact nodup_dictKeys_foldl _ [] (by simp [dictKeys])
  · intro k
    show dictLookup (docs.enum.foldl (fun m p => dictInsert m (canonicalKey p.2) p.1) []) k = _
    rw [dictLookup_foldl]
    simp [dictLookup, orO_none_right]

/- ------------------------------------------------------------------ -/
/- Action executor model                                               -/
/- ------------------------------------------------------------------ -/

/-- Outcome of an annotated-export download (`rmapi.download`): success,
failure whose message contains `"Failed to generate annotations"` (the
no-annotation condition tested at `sync.py` line 288), or any other
failure.  On either failure the call raises before the local file is
created (`geta` fails or the expected output file is absent). -/
inductive DlResult
  | ok
  | noAnnotations
  | otherError
  deriving DecidableEq

/-- Mutation/side-effect events issued by the executor, in program order.
Progress prints are not modelled. -/
inductive Ev
  | downloadAnnotated (k : Key)
  | deleteAttachment (k : Key)
  | attachFile (k : Key)
  | removeLocal (p : Key)
  | downloadAttachment (k : Key) (att : Key)
  | moveLocal (src dst : Key)
  | uploadToTarget (p : Key)
  | moveToTrash (k : Key)
  | deleteFromTarget (k : Key)
  deriving DecidableEq

/-- The fresh temporary path `"{}.pdf".format(uuid.uuid4().hex)` chosen in
the both pass (`sync.py` line 284), modelled as a per-key name. -/
def tempName (k : Key) : Key := k ++ (".uuidtmp").toList ++ pdfExt

/-- `mdocuments[mfiles[doc]]` (`sync.py` lines 281, 303): dictionary lookup
followed by list indexing; `none` models the `KeyError`/`IndexError` path. -/
def mdocOf (mdocs : List MDoc) (mfiles : List (Key × Nat)) (k : Key) : Option MDoc :=
  (dictLookup mfiles k).bind mdocs.get?

/-- The `m_and_r` loop (`sync.py` lines 280-297): for each key, look up the
mendeley document, download the annotated export to a fresh temporary path
(which creates the local file only on success), on the no-annotation
failure skip the key, on any other failure abort the run; on success delete
every attachment of the mendeley document, attach the downloaded file, and
remove the temporary file.  Returns the event trace, the local files
present afterwards (`fs` threads the local filesystem), and `true` when no
fatal error was raised. -/
def bothPass (dl : Key → DlResult) (mdocs : List MDoc) (mfiles : List (Key × Nat)) :
    List Key → List Key → List Ev × List Key × Bool
  | fs, [] => ([], fs, true)
  | fs, k :: ks =>
    match mdocOf mdocs mfiles k with
    | none => ([], fs, false)
    | some mdoc =>
      if dl k = DlResult.ok then
        let fs₂ := (tempName k :: fs).erase (tempName k)
        let r := bothPass dl mdocs mfiles fs₂ ks
        (Ev.downloadAnnotated k :: (mdoc.attachments.map fun _ => Ev.deleteAttachment k)
          ++ Ev.attachFile k :: Ev.removeLocal (tempName k) :: r.1, r.2)
      else if dl k = DlResult.noAnnotations then
        let r := bothPass dl mdocs mfiles fs ks
        (Ev.downloadAnnotated k :: r.1, r.2)
      else ([Ev.downloadAnnotated k], fs, false)

/-- The `m_minus_r` loop (`sync.py` lines 302-316): for each key, look up
the mendeley document; with zero attachments warn and skip; otherwise
download only the first attachment, move it to `<key>.pdf`, upload that
file to the remarkable folder, and remove the local file. -/
def pushPass (mdocs : List MDoc) (mfiles : List (Key × Nat)) :
    List Key → List Ev × Bool
  | [] => ([], true)
  | k :: ks =>
    match mdocOf mdocs mfiles k with
    | none => ([], false)
    | some mdoc =>
      match mdoc.attachments with
      | [] => pushPass mdocs mfiles ks
      | a :: _ =>
        let r := pushPass mdocs mfiles ks
        (Ev.downloadAttachment k a :: Ev.moveLocal a (k ++ pdfExt)
          :: Ev.uploadToTarget (k ++ pdfExt) :: Ev.removeLocal (k ++ pdfExt) :: r.1, r.2)

/-- The `r_minus_m` loop (`sync.py` lines 324-332): for each key, download
the annotated export (any failure raises and aborts the run), move it into
the trash directory (`mv` oracle: `shutil.move` success), and only then
delete the file from remarkable. -/
def deletePass (dl : Key → DlResult) (mv : Key → Bool) :
    List Key → List Ev × Bool
  | [] => ([], true)
  | k :: ks =>
    if dl k = DlResult.ok then
      if mv k then
        let r := deletePass dl mv ks
        (Ev.downloadAnnotated k :: Ev.moveToTrash k :: Ev.deleteFromTarget k :: r.1, r.2)
      else ([Ev.downloadAnnotated k], false)
    else ([Ev.downloadAnnotated k], false)

/-- Inputs of a run: the mendeley folder names, the documents of the
synced mendeley folder, the remarkable top-level folder names, the file
names in the remarkable folder, and the oracles for the external calls. -/
structure Env where
  mFolders : List Key
  mdocs : List MDoc
  rTopFolders : List Key
  rfiles : List Key
  dl : Key → DlResult
  mv : Key → Bool

/-- `main` (`sync.py` lines 243-334): find the remarkable folder in
mendeley (missing ⇒ abort), build `mfiles`, check the mendeley folder
exists on remarkable (missing ⇒ abort), compute the three-way diff, then
run the three passes in order, each aborting the run on a fatal error.
Returns the mutation-event trace and whether the run completed. -/
def main (env : Env) : List Ev × Bool :=
  if REMARKABLE_FOLDER_IN_MENDELEY ∈ env.mFolders then
    let mfiles := buildKeyMap env.mdocs
    if MENDELEY_FOLDER_IN_REMARKABLE ∈ env.rTopFolders then
      let mkeys := dictKeys mfiles
      let r₁ := bothPass env.dl env.mdocs mfiles [] (m_and_r mkeys env.rfiles)
      if r₁.2.2 then
        let r₂ := pushPass env.mdocs mfiles (m_minus_r mkeys env.rfiles)
        if r₂.2 then
          let r₃ := deletePass env.dl env.mv (r_minus_m mkeys env.rfiles)
          (r₁.1 ++ r₂.1 ++ r₃.1, r₃.2)
        else (r₁.1 ++ r₂.1, false)
      else (r₁.1, false)
    else ([], false)
  else ([], false)

/- ------------------------------------------------------------------ -/
/- Unfolding lemmas for the passes                                     -/
/- ------------------------------------------------------------------ -/

theorem bothPass_cons_none {dl : Key → DlResult} {mdocs : List MDoc}
    {mfiles : List (Key × Nat)} {fs ks : List Key} {k : Key}
    (hdoc : mdocOf mdocs mfiles k = none) :
    bothPass dl mdocs mfiles fs (k :: ks) = ([], fs, false) := by
  simp [bothPass, hdoc]

theorem bothPass_cons_ok {dl : Key → DlResult} {mdocs : List MDoc}
    {mfiles : List (Key × Nat)} {fs ks : List Key} {k : Key} {mdoc : MDoc}
    (hdoc : mdocOf mdocs mfiles k = some mdoc) (h₁ : dl k = DlResult.ok) :
    bothPass dl mdocs mfiles fs (k :: ks)
      = (Ev.downloadAnnotated k :: (mdoc.attachments.map fun _ => Ev.deleteAttachment k)
          ++ Ev.attachFile k :: Ev.removeLocal (tempName k)
          :: (bothPass dl mdocs mfiles ((tempName k :: fs).erase (tempName k)) ks).1,
        (bothPass dl mdocs mfiles ((tempName k :: fs).erase (tempName k)) ks).2) := by
  simp [bothPass, hdoc, h₁]

theorem bothPass_cons_noann {dl : Key → DlResult} {mdocs : List MDoc}
    {mfiles : List (Key × Nat)} {fs ks : List Key} {k : Key} {mdoc : MDoc}
    (hdoc : mdocOf mdocs mfiles k = some mdoc) (h₂ : dl k = DlResult.noAnnotations) :
    bothPass dl mdocs mfiles fs (k :: ks)
      = (Ev.downloadAnnotated k :: (bothPass dl mdocs mfiles fs ks).1,
        (bothPass dl mdocs mfiles fs ks).2) := by
  have h₁ : ¬ (dl k = DlResult.ok) := by rw [h₂]; intro hc; cases hc
  simp [bothPass, hdoc, h₁, h₂]

theorem bothPass_cons_err {dl : Key → DlResult} {mdocs : List MDoc}
    {mfiles : List (Key × Nat)} {fs ks : List Key} {k : Key} {mdoc : MDoc}
    (hdoc : mdocOf mdocs mfiles k = some mdoc) (h₃ : dl k = DlResult.otherError) :
    bothPass dl mdocs mfiles fs (k :: ks) = ([Ev.downloadAnnotated k], fs, false) := by
  have h₁ : ¬ (dl k = DlResult.ok) := by rw [h₃]; intro hc; cases hc
  have h₂ : ¬ (dl k = DlResult.noAnnotations) := by rw [h₃]; intro hc; cases hc
  simp [bothPass, hdoc, h₁, h₂]

/- ------------------------------------------------------------------ -/
/- Executor claims                                                     -/
/- ------------------------------------------------------------------ -/

/-- C2: in the delete pass, every delete on the target is preceded (for the
same key) by the annotated-export download and the move into the trash
directory, and a failing download or backup move for a key means the delete
for that key is never invoked. -/
theorem backup_before_delete (dl : Key → DlResult) (mv : Key → Bool)
    (ks : List Key) (k : Key) :
    (¬ (dl k = DlResult.ok ∧ mv k = true) →
      Ev.deleteFromTarget k ∉ (deletePass dl mv ks).1) ∧
    (Ev.deleteFromTarget k ∈ (deletePass dl mv ks).1 →
      List.Sublist [Ev.downloadAnnotated k, Ev.moveToTrash k, Ev.deleteFromTarget k]
        ((deletePass dl mv ks).1)) := by
  constructor
  · induction ks with
    | nil => intro h; simp [deletePass]
    | cons k₂ ks ih =>
      intro h
      by_cases h₁ : dl k₂ = DlResult.ok
      · by_cases h₂ : mv k₂ = true
        · simp only [deletePass, h₁, h₂, if_true, if_pos rfl]
          intro hc
          simp only [List.mem_cons] at hc
          rcases hc with h' | h' | h' | h'
          · exact absurd h' (by simp)
          · exact absurd h' (by simp)
          · injection h' with he
            exact h (by rw [he]; exact ⟨h₁, h₂⟩)
          · exact ih h h'
        · simp [deletePass, h₁, h₂]
      · simp [deletePass, h₁]
  · induction ks with
    | nil => intro hmem; simp [deletePass] at hmem
    | cons k₂ ks ih =>
      intro hmem
      by_cases h₁ : dl k₂ = DlResult.ok
      · by_cases h₂ : mv k₂ = true
        · simp only [deletePass, h₁, h₂, if_true, if_pos rfl] at hmem ⊢
          by_cases hk : k = k₂
          · subst hk
            exact (((List.nil_sublist _).cons₂ _).cons₂ _).cons₂ _
          · have hmem' : Ev.deleteFromTarget k ∈ (deletePass dl mv ks).1 := by
              simp only [List.mem_cons] at hmem
              rcases hmem with h' | h' | h' | h'
              · exact absurd h' (by simp)
              · exact absurd h' (by simp)
              · exact absurd h' (by simp [hk])
              · exact h'
            exact (((ih hmem').cons _).cons _).cons _
        · simp [deletePass, h₁, h₂] at hmem
      · simp [deletePass, h₁] at hmem

/-- Witness for C2 on the key `"C---3"` of the spec scenario: the executor
emits download, move-to-trash, delete in that order. -/
theorem backup_before_delete_witness :
    List.Sublist
      [Ev.downloadAnnotated (("C---3").toList), Ev.moveToTrash (("C---3").toList),
        Ev.deleteFromTarget (("C---3").toList)]
      ((deletePass (fun _ => DlResult.ok) (fun _ => true) [("C---3").toList]).1) :=
  (backup_before_delete (fun _ => DlResult.ok) (fun _ => true)
      [("C---3").toList] (("C---3").toList)).2 (by decide)

/-- Helper: when the download for `k` always reports the no-annotation
condition, the both pass never deletes an attachment of `k`'s document nor
attaches a file to it, wherever `k` occurs in the key list. -/
theorem bothPass_noann_untouched (dl : Key → DlResult) (mdocs : List MDoc)
    (mfiles : List (Key × Nat)) (k : Key) (h : dl k = DlResult.noAnnotations)
    (fs ks : List Key) :
    Ev.deleteAttachment k ∉ (bothPass dl mdocs mfiles fs ks).1 ∧
    Ev.attachFile k ∉ (bothPass dl mdocs mfiles fs ks).1 := by
  induction ks generalizing fs with
  | nil => simp [bothPass]
  | cons k₂ ks ih =>
    cases hdoc : mdocOf mdocs mfiles k₂ with
    | none =>
      rw [bothPass_cons_none hdoc]
      exact ⟨by simp, by simp⟩
    | some mdoc =>
      cases hdl : dl k₂ with
      | ok =>
        have hk : ¬ (k = k₂) := fun he => by rw [he, hdl] at h; cases h
        have hk' : ¬ (k₂ = k) := fun he => hk he.symm
        rw [bothPass_cons_ok hdoc hdl]
        have hrest := ih fs
        exact ⟨by simp [hk, hk', hrest.1], by simp [hk, hk', hrest.2]⟩
      | noAnnotations =>
        rw [bothPass_cons_noann hdoc hdl]
        have hrest := ih fs
        exact ⟨by simp [hrest.1], by simp [hrest.2]⟩
      | otherError =>
        rw [bothPass_cons_err hdoc hdl]
        exact ⟨by simp, by simp⟩

/-- C3: a "both" key whose annotated-export download fails with the
no-annotation condition is skipped without a fatal error: the trace of the
pass only records the download call before continuing with the remaining
keys, the success flag is unchanged, and no attachment of the source
document is deleted and no file is attached for that key. -/
theorem no_annotation_skip (dl : Key → DlResult) (mdocs : List MDoc)
    (mfiles : List (Key × Nat)) (fs ks : List Key) (k : Key) (mdoc : MDoc)
    (hdoc : mdocOf mdocs mfiles k = some mdoc)
    (h : dl k = DlResult.noAnnotations) :
    (bothPass dl mdocs mfiles fs (k :: ks)).1
        = Ev.downloadAnnotated k :: (bothPass dl mdocs mfiles fs ks).1 ∧
    (bothPass dl mdocs mfiles fs (k :: ks)).2.2 = (bothPass dl mdocs mfiles fs ks).2.2 ∧
    Ev.deleteAttachment k ∉ (bothPass dl mdocs mfiles fs (k :: ks)).1 ∧
    Ev.attachFile k ∉ (bothPass dl mdocs mfiles fs (k :: ks)).1 := by
  have h₁ : ¬ (dl k = DlResult.ok) := by rw [h]; intro hc; cases hc
  refine ⟨by simp [bothPass, hdoc, h₁, h], by simp [bothPass, hdoc, h₁, h], ?_, ?_⟩
  · exact (bothPass_noann_untouched dl mdocs mfiles k h fs (k :: ks)).1
  · exact (bothPass_noann_untouched dl mdocs mfiles k h fs (k :: ks)).2

/-- Witness for C3 at a concrete document and key. -/
theorem no_annotation_skip_witness :
    Ev.attachFile (("k").toList)
      ∉ (bothPass (fun _ => DlResult.noAnnotations)
          [⟨("t").toList, ("1").toList, [("a").toList]⟩]
          [((("k").toList), 0)] [] [("k").toList]).1 :=
  (no_annotation_skip (fun _ => DlResult.noAnnotations)
      [⟨("t").toList, ("1").toList, [("a").toList]⟩]
      [((("k").toList), 0)] [] [] (("k").toList)
      ⟨("t").toList, ("1").toList, [("a").toList]⟩ (by decide) rfl).2.2.2

/-- C6: the temporary local file of the both pass never persists past a
key's processing — the pass leaves the set of local files exactly as it
found it on every path (the success path removes the downloaded file after
attaching it; the no-annotation skip path never created it, because the
export tool failed before producing the file) — and on the success path the
removal of the temporary file is an explicit step of the trace. -/
theorem temp_file_never_persists (dl : Key → DlResult) (mdocs : List MDoc)
    (mfiles : List (Key × Nat)) (fs ks : List Key) :
    (bothPass dl mdocs mfiles fs ks).2.1 = fs ∧
    (∀ k mdoc, mdocOf mdocs mfiles k = some mdoc → dl k = DlResult.ok →
      Ev.removeLocal (tempName k) ∈ (bothPass dl mdocs mfiles fs (k :: ks)).1) := by
  constructor
  · induction ks generalizing fs with
    | nil => simp [bothPass]
    | cons k₂ ks ih =>
      cases hdoc : mdocOf mdocs mfiles k₂ with
      | none => simp [bothPass, hdoc]
      | some mdoc =>
        by_cases h₁ : dl k₂ = DlResult.ok
        · simp only [bothPass, hdoc, h₁, if_pos rfl]
          rw [List.erase_cons_head]
          exact ih fs
        · by_cases h₂ : dl k₂ = DlResult.noAnnotations
          · simp only [bothPass, hdoc, h₁, h₂, if_false, if_true, if_neg h₁, if_pos rfl]
            exact ih fs
          · simp [bothPass, hdoc, h₁, h₂]
  · intro k mdoc hdoc hok
    simp [bothPass, hdoc, hok, List.mem_cons, List.mem_append]

/-- Witness for C6: on a successful download the trace contains the removal
of the temporary file. -/
theorem temp_file_never_persists_witness :
    Ev.removeLocal (tempName (("k").toList))
      ∈ (bothPass (fun _ => DlResult.ok)
          [⟨("t").toList, ("1").toList, [("a").toList]⟩]
          [((("k").toList), 0)] [] [("k").toList]).1 :=
  (temp_file_never_persists (fun _ => DlResult.ok)
      [⟨("t").toList, ("1").toList, [("a").toList]⟩]
      [((("k").toList), 0)] [] []).2 (("k").toList)
      ⟨("t").toList, ("1").toList, [("a").toList]⟩ (by decide) rfl

/-- C7: when the configured folder is missing on either side, the run
aborts with an error and an empty mutation trace: no attachment deletion,
attach, upload, delete or backup write is performed. -/
theorem missing_folder_aborts_without_mutation (env : Env)
    (h : REMARKABLE_FOLDER_IN_MENDELEY ∉ env.mFolders ∨
         MENDELEY_FOLDER_IN_REMARKABLE ∉ env.rTopFolders) :
    main env = ([], false) := by
  rcases h with h | h
  · simp [main, h]
  · by_cases h₁ : REMARKABLE_FOLDER_IN_MENDELEY ∈ env.mFolders
    · simp [main, h₁, h]
    · simp [main, h₁]

/-- Witness for C7: a run against empty folder lists aborts mutation-free. -/
theorem missing_folder_aborts_without_mutation_witness :
    main ⟨[], [], [], [], fun _ => DlResult.ok, fun _ => true⟩ = ([], false) :=
  missing_folder_aborts_without_mutation
    ⟨[], [], [], [], fun _ => DlResult.ok, fun _ => true⟩ (Or.inl (by simp))

/-- C8: in the push pass, a key whose document has zero attachments is
skipped without affecting the rest of the pass (not fatal), and a key whose
document has attachments contributes exactly the events: download of the
first attachment only, move of that file to `<key>.pdf`, upload of that
path, and removal of the local file — independent of any further
attachments. -/
theorem push_pass_first_attachment_only (mdocs : List MDoc)
    (mfiles : List (Key × Nat)) (ks : List Key) (k : Key) (mdoc : MDoc)
    (hdoc : mdocOf mdocs mfiles k = some mdoc) :
    (mdoc.attachments = [] →
      pushPass mdocs mfiles (k :: ks) = pushPass mdocs mfiles ks) ∧
    (∀ a rest, mdoc.attachments = a :: rest →
      (pushPass mdocs mfiles (k :: ks)).1
          = Ev.downloadAttachment k a :: Ev.moveLocal a (k ++ pdfExt)
              :: Ev.uploadToTarget (k ++ pdfExt) :: Ev.removeLocal (k ++ pdfExt)
              :: (pushPass mdocs mfiles ks).1 ∧
      (pushPass mdocs mfiles (k :: ks)).2 = (pushPass mdocs mfiles ks).2) := by
  constructor
  · intro hatt
    simp [pushPass, hdoc, hatt]
  · intro a rest hatt
    constructor
    · simp [pushPass, hdoc, hatt]
    · simp [pushPass, hdoc, hatt]

/-- Witness for C8: a document with two attachments only has its first one
pushed. -/
theorem push_pass_first_attachment_only_witness :
    (pushPass [⟨("t").toList, ("1").toList, [("a").toList, ("b").toList]⟩]
        [((("k").toList), 0)] [("k").toList]).1
      = Ev.downloadAttachment (("k").toList) (("a").toList)
          :: Ev.moveLocal (("a").toList) ((("k").toList) ++ pdfExt)
          :: Ev.uploadToTarget ((("k").toList) ++ pdfExt)
          :: Ev.removeLocal ((("k").toList) ++ pdfExt)
          :: (pushPass [⟨("t").toList, ("1").toList, [("a").toList, ("b").toList]⟩]
              [((("k").toList), 0)] []).1 :=
  ((push_pass_first_attachment_only
      [⟨("t").toList, ("1").toList, [("a").toList, ("b").toList]⟩]
      [((("k").toList), 0)] [] (("k").toList)
      ⟨("t").toList, ("1").toList, [("a").toList, ("b").toList]⟩ (by decide)).2
    (("a").toList) [("b").toList] rfl).1

end Sync
